import Mathlib

/-!
Verification development for the variant sequence extraction core
(`kipoiseq/extractors/vcf_seq.py`).

The Python source is shallowly embedded: strings are `List Char`, Python
integers are `Int`, fallible operations return `Except`/`Option`.  The two
external collaborators are modelled by oracles: the reference store is a
total base function `Int → Char` (the spec requires `fetch(c, s, e)` to
return exactly `e - s` bases), and the variant-call source backing
`MultiSampleVCF` is a record query function.  Python slice semantics
(index clamping, negative indices counting from the end) are embedded
explicitly in `pySlice`.
-/

namespace VcfSeq

/-- Python slice-index normalisation for a positive step, as in
`slice.indices(n)`: a negative index counts from the end (clamped at 0),
a nonnegative index is clamped at `n`. -/
def sliceIndex (n : Nat) (i : Int) : Nat :=
  if i < 0 then ((n : Int) + i).toNat else min i.toNat n

/-- Python `s[a:b]` (step 1) on a list; `none` stands for an omitted bound. -/
def pySlice {α : Type} (s : List α) (a b : Option Int) : List α :=
  let n := s.length
  let lo := match a with | none => 0 | some i => sliceIndex n i
  let hi := match b with | none => n | some i => sliceIndex n i
  (s.take hi).drop lo

/-- `pybedtools.Interval`: half-open 0-based genomic interval.  The source
constructs intervals with the default strand `"."` when none is given. -/
structure Interval where
  chrom : String
  start : Int
  end_ : Int
  strand : String := "."
  deriving DecidableEq

/-- `pyfaidx.Sequence`: a text payload together with its genomic
coordinates (`end_ = start + seq.length` for every sequence the source
constructs; 0-based half-open). -/
structure Sequence where
  name : String
  seq : List Char
  start : Int
  end_ : Int
  deriving DecidableEq

/-- `pyfaidx.Sequence.__getitem__` with a step-1 slice, in the 0-based
coordinate branch (which is the branch taken for every sequence the
source slices, since they satisfy `len(seq) == end - start`): the payload
is sliced with Python semantics and the coordinates move with the
normalised slice indices. -/
def Sequence.slice (s : Sequence) (a b : Option Int) : Sequence :=
  let n := s.seq.length
  let lo := match a with | none => 0 | some i => sliceIndex n i
  let hi := match b with | none => n | some i => sliceIndex n i
  ⟨s.name, (s.seq.take hi).drop lo, s.start + (lo : Int), s.start + (hi : Int)⟩

/-- `cyvcf2.Variant`, restricted to the fields the source reads: CHROM,
1-based POS, REF, the first ALT allele, and the per-sample genotype codes
`gt_types`. -/
structure Variant where
  CHROM : String
  POS : Int
  REF : List Char
  ALT : List Char
  gt_types : List Int := []
  deriving DecidableEq

/-- `cyvcf2.Variant.start`: 0-based start, `POS - 1`. -/
def Variant.start (v : Variant) : Int := v.POS - 1

/-- The apostrophe character (used by `variant_to_id`). -/
def quoteChar : Char := Char.ofNat 39

/-- Decimal digit character. -/
def digitChar (d : Nat) : Char := Char.ofNat (48 + d)

/-- Fuel-driven decimal rendering accumulator (structural recursion so
that concrete identity strings evaluate by `decide`). -/
def natCharsCore : Nat → Nat → List Char → List Char
  | 0, _, acc => acc
  | fuel + 1, n, acc =>
    let acc' := digitChar (n % 10) :: acc
    if n < 10 then acc' else natCharsCore fuel (n / 10) acc'

/-- Python `str` of a nonnegative integer. -/
def natChars (n : Nat) : List Char := natCharsCore (n + 1) n []

/-- Python `str` of an integer. -/
def intChars (i : Int) : List Char :=
  if i < 0 then '-' :: natChars (-i).toNat else natChars i.toNat

/-- `variant_to_id`: `"%s:%s:%s:['%s']" % (CHROM, str(POS), REF, ALT[0])`. -/
def variant_to_id (v : Variant) : List Char :=
  v.CHROM.data ++ [':'] ++ intChars v.POS ++ [':'] ++ v.REF
    ++ [':', '[', quoteChar] ++ v.ALT ++ [quoteChar, ']']

/-- Python `str.split(sep)` for a one-character separator: splits on every
occurrence, keeping empty pieces (the result is always nonempty). -/
def pySplit (sep : Char) : List Char → List (List Char)
  | [] => [[]]
  | c :: rest =>
    match pySplit sep rest with
    | [] => [[]]
    | h :: t => if c = sep then [] :: h :: t else (c :: h) :: t

/-- One step of the digit fold inside `parseNat`. -/
def parseDigitStep (acc : Option Nat) (c : Char) : Option Nat :=
  match acc with
  | none => none
  | some n => if c.isDigit then some (n * 10 + (c.toNat - 48)) else none

/-- Python `int(s)` restricted to the strings `str` produces: an optional
leading minus sign followed by a nonempty run of decimal digits. -/
def parseNat (s : List Char) : Option Nat :=
  if s = [] then none else s.foldl parseDigitStep (some 0)

/-- Signed variant of `parseNat`: a leading minus sign negates the
digits after it, as Python `int` does on `str(int)` output. -/
def parseInt (s : List Char) : Option Int :=
  if s.head? = some '-' then
    (parseNat (s.drop 1)).map (fun (n : Nat) => -(n : Int))
  else (parseNat s).map (fun (n : Nat) => (n : Int))

/-- The parsing step of `MultiSampleVCF.get_variant_by_id`:
`chrom, pos, ref, alt = variant_id.split(':')` (exactly four fields, else
a ValueError), `pos = int(pos)`, `alt = alt.split("'")[1]` (an IndexError
if there is no second piece).  Failures are `none`. -/
def parse_variant_id (s : List Char) :
    Option (List Char × Int × List Char × List Char) :=
  match pySplit ':' s with
  | [chrom, pos, ref, alt] =>
    match parseInt pos, pySplit quoteChar alt with
    | some p, _ :: a :: _ => some (chrom, p, ref, a)
    | _, _ => none
  | _ => none

/-- An element of an `IntervalSeqBuilder` list: either a yet-unresolved
reference sub-interval or a resolved `pyfaidx.Sequence` literal. -/
inductive Segment where
  | itv (i : Interval)
  | seq (s : Sequence)
  deriving DecidableEq

namespace IntervalSeqBuilder

/-- One step of `IntervalSeqBuilder.restore`: an `Interval` element is
replaced by the window slice
`sequence[interval.start - sequence.start :][: max(0, end - start)]`
(the degenerate-length clamp is in the source); a `Sequence` element is
kept as is. -/
def restoreSeg (w : Sequence) : Segment → Segment
  | .itv itv =>
    let interval_len : Int := max 0 (itv.end_ - itv.start)
    let st : Int := itv.start - w.start
    .seq (w.slice (some st) (some (st + interval_len)))
  | .seq q => .seq q

/-- `IntervalSeqBuilder.restore`: resolve every `Interval` element against
the fetched window, in place. -/
def restore (sb : List Segment) (w : Sequence) : List Segment :=
  sb.map (restoreSeg w)

/-- The `TypeError` message raised by `_concat`. -/
def concatError : String :=
  "Intervals should be restored with restore method before calling concat method!"

/-- `IntervalSeqBuilder.concat`: join the payloads, failing on the first
element that is not a `Sequence`. -/
def concat : List Segment → Except String (List Char)
  | [] => .ok []
  | .itv _ :: _ => .error concatError
  | .seq q :: rest => (concat rest).map (fun s => q.seq ++ s)

end IntervalSeqBuilder

/-- `MultiSampleVCF._has_variant_gt`: a genotype code counts as carrying
the variant iff it is neither 0 nor 2. -/
def _has_variant_gt (gt_type : Int) : Bool :=
  gt_type != 0 && gt_type != 2

/-- `MultiSampleVCF`, with the underlying `cyvcf2.VCF` region query
modelled as an oracle from the region string to the record list. -/
structure MultiSampleVCF where
  samples : List String
  query : String → List Variant

namespace MultiSampleVCF

/-- `dict(zip(self.samples, range(len(self.samples))))` followed by a
lookup: the index of the last occurrence of the sample name (a Python
dict keeps the last binding of a duplicated key), `none` when absent. -/
def sample_mapping (vcf : MultiSampleVCF) (s : String) : Option Nat :=
  (vcf.samples.zip (List.range vcf.samples.length)).foldl
    (fun acc p => if p.1 = s then some p.2 else acc) none

/-- `MultiSampleVCF._region`: `'%s:%d-%d' % (chrom, start, end)`. -/
def _region (_vcf : MultiSampleVCF) (interval : Interval) : String :=
  interval.chrom ++ ":" ++ toString interval.start ++ "-"
    ++ toString interval.end_

/-- `MultiSampleVCF._has_variant`.  An unknown sample name or an
out-of-range genotype index raises in Python (KeyError/IndexError);
those collaborator-error paths are outside the claims and default to
`false`/code 0 here. -/
def _has_variant (vcf : MultiSampleVCF) (v : Variant) (sample_id : String) :
    Bool :=
  match vcf.sample_mapping sample_id with
  | some i => _has_variant_gt (v.gt_types.getD i 0)
  | none => false

/-- `MultiSampleVCF.fetch_variants`: every record of the region query,
kept when no sample is requested, and filtered by `_has_variant`
otherwise. -/
def fetch_variants (vcf : MultiSampleVCF) (interval : Interval)
    (sample_id : Option String) : List Variant :=
  (vcf.query (vcf._region interval)).filter
    (fun v =>
      match sample_id with
      | none => true
      | some s => vcf._has_variant v s)

/-- `MultiSampleVCF.get_samples`:
`dict(filter(lambda x: self._has_variant_gt(x[1]), zip(self.samples, variant.gt_types)))`,
modelled as the filtered association list (sample names in a VCF header
are distinct, so the dict is faithfully an association list). -/
def get_samples (vcf : MultiSampleVCF) (v : Variant) : List (String × Int) :=
  (vcf.samples.zip v.gt_types).filter (fun x => _has_variant_gt x.2)

end MultiSampleVCF

namespace VariantSeqExtractor

/-- `_variant_to_sequence`: pair each variant with its replacement, both
as coordinate-carrying sequences anchored at the 0-based variant start. -/
def _variant_to_sequence (variants : List Variant) :
    List (Sequence × Sequence) :=
  variants.map fun v =>
    (⟨v.CHROM, v.REF, v.start, v.start + (v.REF.length : Int)⟩,
     ⟨v.CHROM, v.ALT, v.start, v.start + (v.ALT.length : Int)⟩)

/-- The `which` argument of `_split_overlapping`. -/
inductive Which where
  | left
  | right
  | both
  deriving DecidableEq

/-- `_split_overlapping`: a pair whose reference segment strictly contains
the split point is cut at `mid = anchor - ref.start` into the pieces
selected by `which`; every other pair passes through. -/
def _split_overlapping (variant_pairs : List (Sequence × Sequence))
    (anchor : Int) (which : Which := .both) : List (Sequence × Sequence) :=
  variant_pairs.flatMap fun p =>
    let ref := p.1
    let alt := p.2
    if ref.start < anchor ∧ anchor < ref.end_ then
      let mid := anchor - ref.start
      match which with
      | .left => [(ref.slice none (some mid), alt.slice none (some mid))]
      | .right => [(ref.slice (some mid) none, alt.slice (some mid) none)]
      | .both =>
        [(ref.slice none (some mid), alt.slice none (some mid)),
         (ref.slice (some mid) none, alt.slice (some mid) none)]
    else [(ref, alt)]

/-- Stable insertion of `x` in front of the first element `y` with
`le x y`. -/
def insertBy {α : Type} (le : α → α → Bool) (x : α) : List α → List α
  | [] => [x]
  | y :: ys => if le x y then x :: y :: ys else y :: insertBy le x ys

/-- Stable sort (extensionally equal to Python `sorted`, which is a
stable sort, for any total preorder `le`). -/
def stableSortBy {α : Type} (le : α → α → Bool) : List α → List α
  | [] => []
  | x :: xs => insertBy le x (stableSortBy le xs)

/-- `sorted(filter(lambda x: x[0].start >= anchor, pairs), key=start)`. -/
def upstream_variants (variant_pairs : List (Sequence × Sequence))
    (anchor : Int) : List (Sequence × Sequence) :=
  stableSortBy (fun a b => decide (a.1.start ≤ b.1.start))
    (variant_pairs.filter (fun x => decide (anchor ≤ x.1.start)))

/-- `sorted(filter(lambda x: x[0].start < anchor, pairs), key=start,
reverse=True)`; Python keeps the sort stable under `reverse=True`. -/
def downstream_variants (variant_pairs : List (Sequence × Sequence))
    (anchor : Int) : List (Sequence × Sequence) :=
  stableSortBy (fun a b => decide (b.1.start ≤ a.1.start))
    (variant_pairs.filter (fun x => decide (x.1.start < anchor)))

/-- `_updated_interval`: grow the fetch window by `|len(alt) - len(ref)|`
for every net deletion, upstream on the right bound and downstream on the
left bound. -/
def _updated_interval (interval : Interval)
    (up_variants down_variants : List (Sequence × Sequence)) : Int × Int :=
  let iend := up_variants.foldl
    (fun iend p =>
      let diff_len : Int := (p.2.seq.length : Int) - (p.1.seq.length : Int)
      if diff_len < 0 then iend - diff_len else iend)
    interval.end_
  let istart := down_variants.foldl
    (fun istart p =>
      let diff_len : Int := (p.2.seq.length : Int) - (p.1.seq.length : Int)
      if diff_len < 0 then istart + diff_len else istart)
    interval.start
  (istart, iend)

/-- The fetch window of `extract`: `_updated_interval` in fixed-length
mode, the unchanged interval bounds otherwise. -/
def fetchWindow (interval : Interval)
    (up_variants down_variants : List (Sequence × Sequence))
    (fixed_len : Bool) : Int × Int :=
  if fixed_len then _updated_interval interval up_variants down_variants
  else (interval.start, interval.end_)

/-- The loop of `_downstream_builder` (before the final `reverse`):
walking from the anchor toward `istart`, breaking at the first variant
whose reference segment ends at or before `istart`. -/
def downstreamLoop (chrom : String) (istart : Int) (prev : Int) :
    List (Sequence × Sequence) → List Segment
  | [] => [.itv ⟨chrom, istart, prev, "."⟩]
  | p :: rest =>
    if p.1.end_ ≤ istart then [.itv ⟨chrom, istart, prev, "."⟩]
    else
      .itv ⟨chrom, p.1.end_, prev, "."⟩ :: .seq p.2 ::
        downstreamLoop chrom istart p.1.start rest

/-- `_downstream_builder`. -/
def _downstream_builder (down_variants : List (Sequence × Sequence))
    (interval : Interval) (anchor istart : Int) : List Segment :=
  (downstreamLoop interval.chrom istart anchor down_variants).reverse

/-- The loop of `_upstream_builder`: walking from the anchor toward
`iend`, breaking at the first variant whose reference segment starts at
or after `iend`. -/
def upstreamLoop (chrom : String) (iend : Int) (prev : Int) :
    List (Sequence × Sequence) → List Segment
  | [] => [.itv ⟨chrom, prev, iend, "."⟩]
  | p :: rest =>
    if iend ≤ p.1.start then [.itv ⟨chrom, prev, iend, "."⟩]
    else
      .itv ⟨chrom, prev, p.1.start, "."⟩ :: .seq p.2 ::
        upstreamLoop chrom iend p.1.end_ rest

/-- `_upstream_builder`. -/
def _upstream_builder (up_variants : List (Sequence × Sequence))
    (interval : Interval) (anchor iend : Int) : List Segment :=
  upstreamLoop interval.chrom iend anchor up_variants

/-- `_fetch`.  Modelled from the spec: the reference store
(`FastaStringExtractor`, not part of the sources under verification) must
return the bases covering exactly `[istart, iend)`, so the genome is an
oracle `Int → Char` and the fetch materialises `iend - istart` bases.
The interval handed to the store carries the default strand `"."`, so no
strand flipping happens at fetch time. -/
def _fetch (genome : Int → Char) (interval : Interval) (istart iend : Int) :
    Sequence :=
  ⟨interval.chrom,
   (List.range (iend - istart).toNat).map
     (fun (k : Nat) => genome (istart + (k : Int))),
   istart, iend⟩

/-- `_cut_to_fix_len`: keep the last `anchor - interval.start` characters
of the downstream text and the first `interval.end - anchor` characters
of the upstream text; a zero length short-circuits to the empty string
(Python truthiness of the length). -/
def _cut_to_fix_len (down_str up_str : List Char) (interval : Interval)
    (anchor : Int) : List Char × List Char :=
  let down_len : Int := anchor - interval.start
  let up_len : Int := interval.end_ - anchor
  (if down_len ≠ 0 then pySlice down_str (some (-down_len)) none else [],
   if up_len ≠ 0 then pySlice up_str none (some up_len) else [])

/-- `pyfaidx.complement` on one base (the source applies
`complement(seq)[::-1]` for minus-strand intervals).  The table covers
the canonical bases; pyfaidx rejects characters outside its table, a
collaborator concern outside this model. -/
def complementChar (c : Char) : Char :=
  if c = 'A' then 'T' else if c = 'T' then 'A'
  else if c = 'C' then 'G' else if c = 'G' then 'C'
  else if c = 'a' then 't' else if c = 't' then 'a'
  else if c = 'c' then 'g' else if c = 'g' then 'c'
  else c

/-- `complement(seq)[::-1]`. -/
def reverseComplement (s : List Char) : List Char :=
  (s.map complementChar).reverse

/-- `anchor = max(min(anchor, interval.end), interval.start)`. -/
def clampedAnchor (interval : Interval) (anchor : Int) : Int :=
  max (min anchor interval.end_) interval.start

/-- The body of `VariantSeqExtractor.extract` after the anchor clamp. -/
def extractFrom (genome : Int → Char) (interval : Interval)
    (variants : List Variant) (anchor : Int) (fixed_len : Bool) :
    Except String (List Char) :=
  let variant_pairs := _variant_to_sequence variants
  let variant_pairs := _split_overlapping variant_pairs anchor .both
  let variant_pairs :=
    if !fixed_len then
      _split_overlapping
        (_split_overlapping variant_pairs interval.start .right)
        interval.end_ .left
    else variant_pairs
  let ups := upstream_variants variant_pairs anchor
  let downs := downstream_variants variant_pairs anchor
  let w := fetchWindow interval ups downs fixed_len
  let istart := w.1
  let iend := w.2
  let down_sb := _downstream_builder downs interval anchor istart
  let up_sb := _upstream_builder ups interval anchor iend
  let seq := _fetch genome interval istart iend
  let up_sb := IntervalSeqBuilder.restore up_sb seq
  let down_sb := IntervalSeqBuilder.restore down_sb seq
  match IntervalSeqBuilder.concat down_sb, IntervalSeqBuilder.concat up_sb with
  | .error e, _ => .error e
  | .ok _, .error e => .error e
  | .ok down_str, .ok up_str =>
    let cut :=
      if fixed_len then _cut_to_fix_len down_str up_str interval anchor
      else (down_str, up_str)
    let s := cut.1 ++ cut.2
    .ok (if interval.strand = "-" then reverseComplement s else s)

/-- `VariantSeqExtractor.extract`. -/
def extract (genome : Int → Char) (interval : Interval)
    (variants : List Variant) (anchor : Int) (fixed_len : Bool) :
    Except String (List Char) :=
  extractFrom genome interval variants (clampedAnchor interval anchor)
    fixed_len

end VariantSeqExtractor

/-! ### Spec-side definitions -/

/-- The reference bases of an interval (spec: `reference_text(interval)`). -/
def reference_text (genome : Int → Char) (interval : Interval) : List Char :=
  (List.range (interval.end_ - interval.start).toNat).map
    (fun (k : Nat) => genome (interval.start + (k : Int)))

/-- The text carried by a builder element (empty for an unresolved
reference sub-interval). -/
def segText : Segment → List Char
  | .seq q => q.seq
  | .itv _ => []

/-- The text a builder element resolves to against the window `w`. -/
def resolveText (w : Sequence) (s : Segment) : List Char :=
  segText (IntervalSeqBuilder.restoreSeg w s)

/-- Whether a builder element is an unresolved reference sub-interval. -/
def isItv : Segment → Bool
  | .itv _ => true
  | .seq _ => false

/-- The length delta `len(alt) - len(ref)` of a variant pair. -/
def pairDelta (p : Sequence × Sequence) : Int :=
  (p.2.seq.length : Int) - (p.1.seq.length : Int)

/-- Sum of the negative length deltas of a pair list (nonpositive). -/
def negSum (l : List (Sequence × Sequence)) : Int :=
  (l.map (fun p => if pairDelta p < 0 then pairDelta p else 0)).sum

/-- Total deleted length `sum of |len(alt) - len(ref)|` over the
net-deletion pairs of a list (spec: the per-variant `|delta|` boundary
extension). -/
def deletionSum (l : List (Sequence × Sequence)) : Int :=
  (l.map (fun p => if pairDelta p < 0 then -pairDelta p else 0)).sum

/-- A pair whose reference segment carries coherent coordinates:
`end = start + len(seq)`.  Every pair the pipeline builds satisfies it. -/
def refWF (p : Sequence × Sequence) : Prop :=
  p.1.end_ = p.1.start + (p.1.seq.length : Int)

/-- The variant-pair list after the splitting stage of `extract` (step 1
of the source). -/
def pipelinePairs (interval : Interval) (anchor : Int) (fixed_len : Bool)
    (variants : List Variant) : List (Sequence × Sequence) :=
  let vp := VariantSeqExtractor._variant_to_sequence variants
  let vp := VariantSeqExtractor._split_overlapping vp anchor .both
  if !fixed_len then
    VariantSeqExtractor._split_overlapping
      (VariantSeqExtractor._split_overlapping vp interval.start .right)
      interval.end_ .left
  else vp

/-- The value `extractFrom` returns (it never takes the error branches:
`restore` resolves every interval segment, so both `concat` calls
succeed). -/
def extractPlan (genome : Int → Char) (interval : Interval)
    (variants : List Variant) (anchor : Int) (fixed_len : Bool) :
    List Char :=
  let vp := pipelinePairs interval anchor fixed_len variants
  let ups := VariantSeqExtractor.upstream_variants vp anchor
  let downs := VariantSeqExtractor.downstream_variants vp anchor
  let w := VariantSeqExtractor.fetchWindow interval ups downs fixed_len
  let seq := VariantSeqExtractor._fetch genome interval w.1 w.2
  let down_str :=
    ((VariantSeqExtractor._downstream_builder downs interval anchor w.1).map
      (resolveText seq)).flatten
  let up_str :=
    ((VariantSeqExtractor._upstream_builder ups interval anchor w.2).map
      (resolveText seq)).flatten
  let cut :=
    if fixed_len then
      VariantSeqExtractor._cut_to_fix_len down_str up_str interval anchor
    else (down_str, up_str)
  let s := cut.1 ++ cut.2
  if interval.strand = "-" then VariantSeqExtractor.reverseComplement s
  else s

/-! ### Python slice lemmas -/

theorem length_pySlice_of_bounds {α : Type} (s : List α) {a b : Int}
    (h0 : 0 ≤ a) (hab : a ≤ b) (hb : b ≤ (s.length : Int)) :
    ((pySlice s (some a) (some b)).length : Int) = b - a := by
  simp only [pySlice, sliceIndex]
  rw [if_neg (by omega), if_neg (by omega)]
  simp only [List.length_drop, List.length_take]
  omega

theorem pySlice_eq_drop_take {α : Type} (s : List α) {a b : Int}
    (h0 : 0 ≤ a) (hab : a ≤ b) (hb : b ≤ (s.length : Int)) :
    pySlice s (some a) (some b) = (s.take b.toNat).drop a.toNat := by
  simp only [pySlice, sliceIndex]
  rw [if_neg (by omega), if_neg (by omega),
    Nat.min_eq_left (by omega), Nat.min_eq_left (by omega)]

theorem pySlice_same {α : Type} (s : List α) (a : Int) :
    pySlice s (some a) (some a) = [] := by
  simp only [pySlice]
  rw [List.drop_take]
  simp

theorem pySlice_take {α : Type} (s : List α) (k : Int) (h : 0 ≤ k) :
    pySlice s none (some k) = s.take k.toNat := by
  simp only [pySlice, sliceIndex]
  rw [if_neg (by omega)]
  rcases Nat.le_total k.toNat s.length with hle | hle
  · simp [Nat.min_eq_left hle]
  · simp [Nat.min_eq_right hle, List.take_of_length_le hle,
      List.take_of_length_le (Nat.le_refl _)]

theorem pySlice_zero_take {α : Type} (s : List α) (k : Int) (h : 0 ≤ k) :
    pySlice s (some 0) (some k) = s.take k.toNat := by
  rw [← pySlice_take s k h]
  simp [pySlice, sliceIndex]

theorem pySlice_last {α : Type} (s : List α) (k : Int) (h1 : 0 < k) :
    pySlice s (some (-k)) none = s.drop ((s.length : Int) - k).toNat := by
  simp only [pySlice, sliceIndex]
  rw [if_pos (by omega)]
  simp only [List.take_length]
  rfl

/-! ### `restore` and `concat` lemmas -/

theorem restoreSeg_not_itv (w : Sequence) (s : Segment) :
    isItv (IntervalSeqBuilder.restoreSeg w s) = false := by
  cases s <;> rfl

theorem concat_error_of_itv (sb : List Segment)
    (h : ∃ s ∈ sb, isItv s = true) :
    IntervalSeqBuilder.concat sb = .error IntervalSeqBuilder.concatError := by
  induction sb with
  | nil => simp at h
  | cons hd tl ih =>
    cases hd with
    | itv i => rfl
    | seq q =>
      obtain ⟨s, hs, hitv⟩ := h
      rcases List.mem_cons.mp hs with rfl | hmem
      · simp [isItv] at hitv
      · rw [IntervalSeqBuilder.concat, ih ⟨s, hmem, hitv⟩]
        rfl

theorem concat_of_no_itv (sb : List Segment)
    (h : ∀ s ∈ sb, isItv s = false) :
    IntervalSeqBuilder.concat sb = .ok ((sb.map segText).flatten) := by
  induction sb with
  | nil => rfl
  | cons hd tl ih =>
    cases hd with
    | itv i => have := h (.itv i) (by simp); simp [isItv] at this
    | seq q =>
      rw [IntervalSeqBuilder.concat, ih (fun s hs => h s (by simp [hs]))]
      rfl

theorem concat_restore (sb : List Segment) (w : Sequence) :
    IntervalSeqBuilder.concat (IntervalSeqBuilder.restore sb w) =
      .ok ((sb.map (resolveText w)).flatten) := by
  rw [IntervalSeqBuilder.restore,
    concat_of_no_itv _ (by
      intro s hs
      obtain ⟨t, _, rfl⟩ := List.mem_map.mp hs
      exact restoreSeg_not_itv w t)]
  congr 1
  rw [List.map_map]
  rfl

/-! ### Resolved segment lengths -/

theorem length_resolveText_itv (w : Sequence) (iend : Int)
    (hl : (w.seq.length : Int) = iend - w.start)
    (c str : String) {s e : Int} (h1 : w.start ≤ s) (h2 : e ≤ iend) :
    ((resolveText w (.itv ⟨c, s, e, str⟩)).length : Int) = max 0 (e - s) := by
  have hseq : resolveText w (.itv ⟨c, s, e, str⟩) =
      pySlice w.seq (some (s - w.start))
        (some ((s - w.start) + max 0 (e - s))) := rfl
  rcases le_or_lt e s with hle | hlt
  · have hm : max (0 : Int) (e - s) = 0 := by omega
    rw [hseq, hm, add_zero, pySlice_same]
    rfl
  · have hm : max (0 : Int) (e - s) = e - s := by omega
    rw [hseq, hm,
      length_pySlice_of_bounds w.seq (by omega) (by omega) (by omega)]
    omega

theorem length_flatten_map_reverse {α β : Type} (f : α → List β)
    (l : List α) :
    ((l.reverse.map f).flatten).length = ((l.map f).flatten).length := by
  rw [List.map_reverse, List.length_flatten, List.length_flatten,
    List.map_reverse, List.sum_reverse]

/-! ### Negative-delta bookkeeping -/

theorem negSum_nil : negSum [] = 0 := rfl

theorem negSum_cons (p : Sequence × Sequence)
    (l : List (Sequence × Sequence)) :
    negSum (p :: l) =
      (if pairDelta p < 0 then pairDelta p else 0) + negSum l := by
  simp [negSum]

theorem negSum_nonpos (l : List (Sequence × Sequence)) : negSum l ≤ 0 := by
  induction l with
  | nil => simp [negSum_nil]
  | cons p t ih =>
    rw [negSum_cons]
    have : (if pairDelta p < 0 then pairDelta p else 0) ≤ 0 := by
      split <;> omega
    omega

open VariantSeqExtractor in
theorem updated_interval_eq (itv : Interval)
    (U D : List (Sequence × Sequence)) :
    _updated_interval itv U D =
      (itv.start + negSum D, itv.end_ - negSum U) := by
  have hup : ∀ (l : List (Sequence × Sequence)) (init : Int),
      l.foldl (fun acc p =>
        let diff_len : Int := (p.2.seq.length : Int) - (p.1.seq.length : Int)
        if diff_len < 0 then acc - diff_len else acc) init =
        init - negSum l := by
    intro l
    induction l with
    | nil => intro init; simp [negSum_nil]
    | cons p t ih =>
      intro init
      rw [List.foldl_cons, ih, negSum_cons]
      simp only [pairDelta]
      split <;> omega
  have hdown : ∀ (l : List (Sequence × Sequence)) (init : Int),
      l.foldl (fun acc p =>
        let diff_len : Int := (p.2.seq.length : Int) - (p.1.seq.length : Int)
        if diff_len < 0 then acc + diff_len else acc) init =
        init + negSum l := by
    intro l
    induction l with
    | nil => intro init; simp [negSum_nil]
    | cons p t ih =>
      intro init
      rw [List.foldl_cons, ih, negSum_cons]
      simp only [pairDelta]
      split <;> omega
  simp only [_updated_interval]
  rw [hup, hdown]

/-! ### Builder loop length bounds -/

open VariantSeqExtractor in
theorem downstreamLoop_len_ge (w : Sequence) (anchor iend : Int)
    (hl : (w.seq.length : Int) = iend - w.start) (ha : anchor ≤ iend)
    (chrom : String) :
    ∀ (D : List (Sequence × Sequence)) (prev : Int),
      (∀ p ∈ D, refWF p ∧ p.1.start < anchor) → prev ≤ anchor →
      prev - w.start + negSum D ≤
        (((downstreamLoop chrom w.start prev D).map
            (resolveText w)).flatten.length : Int) := by
  intro D
  induction D with
  | nil =>
    intro prev _ hprev
    simp only [downstreamLoop, List.map_cons, List.map_nil, List.flatten,
      List.append_nil, negSum_nil]
    rw [length_resolveText_itv w iend hl chrom "." (le_refl _)
      (le_trans hprev ha)]
    omega
  | cons p rest ih =>
    intro prev hmem hprev
    by_cases hbr : p.1.end_ ≤ w.start
    · rw [downstreamLoop, if_pos hbr]
      simp only [List.map_cons, List.map_nil, List.flatten, List.append_nil]
      rw [length_resolveText_itv w iend hl chrom "." (le_refl _)
        (le_trans hprev ha)]
      have := negSum_nonpos (p :: rest)
      omega
    · rw [downstreamLoop, if_neg hbr]
      simp only [List.map_cons, List.flatten_cons, List.length_append]
      obtain ⟨hwf, hstart⟩ := hmem p (by simp)
      have h3 := ih p.1.start
        (fun q hq => hmem q (by simp [hq])) (le_of_lt hstart)
      have hwf' : p.1.end_ = p.1.start + (p.1.seq.length : Int) := hwf
      have h1 := length_resolveText_itv w iend hl chrom "."
        (s := p.1.end_) (e := prev) (by omega) (le_trans hprev ha)
      have h2 : ((resolveText w (.seq p.2)).length : Int) =
        (p.2.seq.length : Int) := rfl
      rw [negSum_cons]
      have hdelta : pairDelta p =
          (p.2.seq.length : Int) - (p.1.seq.length : Int) := rfl
      push_cast
      rw [h1, h2]
      rcases lt_or_le (pairDelta p) 0 with hneg | hneg
      · rw [if_pos hneg]; omega
      · rw [if_neg (not_lt.mpr hneg)]; omega

open VariantSeqExtractor in
theorem upstreamLoop_len_ge (w : Sequence) (anchor iend : Int)
    (hl : (w.seq.length : Int) = iend - w.start)
    (chrom : String) :
    ∀ (U : List (Sequence × Sequence)) (prev : Int),
      (∀ p ∈ U, refWF p ∧ anchor ≤ p.1.start) →
      w.start ≤ prev → w.start ≤ anchor →
      iend - prev + negSum U ≤
        (((upstreamLoop chrom iend prev U).map
            (resolveText w)).flatten.length : Int) := by
  intro U
  induction U with
  | nil =>
    intro prev _ hprev _
    simp only [upstreamLoop, List.map_cons, List.map_nil, List.flatten,
      List.append_nil, negSum_nil]
    rw [length_resolveText_itv w iend hl chrom "." hprev (le_refl _)]
    omega
  | cons p rest ih =>
    intro prev hmem hprev hwa
    by_cases hbr : iend ≤ p.1.start
    · rw [upstreamLoop, if_pos hbr]
      simp only [List.map_cons, List.map_nil, List.flatten, List.append_nil]
      rw [length_resolveText_itv w iend hl chrom "." hprev (le_refl _)]
      have := negSum_nonpos (p :: rest)
      omega
    · rw [upstreamLoop, if_neg hbr]
      simp only [List.map_cons, List.flatten_cons, List.length_append]
      obtain ⟨hwf, hstart⟩ := hmem p (by simp)
      have hwf' : p.1.end_ = p.1.start + (p.1.seq.length : Int) := hwf
      have h3 := ih p.1.end_
        (fun q hq => hmem q (by simp [hq]))
        (by have h0 : (0:Int) ≤ (p.1.seq.length : Int) := by positivity
            omega)
        hwa
      have h1 := length_resolveText_itv w iend hl chrom "."
        (s := prev) (e := p.1.start) hprev (by omega)
      have h2 : ((resolveText w (.seq p.2)).length : Int) =
        (p.2.seq.length : Int) := rfl
      rw [negSum_cons]
      have hdelta : pairDelta p =
          (p.2.seq.length : Int) - (p.1.seq.length : Int) := rfl
      push_cast
      rw [h1, h2]
      rcases lt_or_le (pairDelta p) 0 with hneg | hneg
      · rw [if_pos hneg]; omega
      · rw [if_neg (not_lt.mpr hneg)]; omega

/-! ### Reference-segment coherence through the pipeline -/

theorem sliceIndex_le (n : Nat) (i : Int) : sliceIndex n i ≤ n := by
  simp only [sliceIndex]
  split <;> omega

theorem refWF_variant_to_sequence (variants : List Variant) :
    ∀ p ∈ VariantSeqExtractor._variant_to_sequence variants, refWF p := by
  intro p hp
  obtain ⟨v, _, rfl⟩ := List.mem_map.mp hp
  simp [refWF]

theorem refWF_slice_front (r a : Sequence) (m : Int) :
    refWF (r.slice none (some m), a.slice none (some m)) := by
  have h := sliceIndex_le r.seq.length m
  simp only [refWF, Sequence.slice, List.drop_zero, List.length_take]
  omega

theorem refWF_slice_back (r a : Sequence) (m : Int) :
    refWF (r.slice (some m) none, a.slice (some m) none) := by
  have h := sliceIndex_le r.seq.length m
  simp only [refWF, Sequence.slice, List.take_length, List.length_drop]
  omega

open VariantSeqExtractor in
theorem refWF_split (pairs : List (Sequence × Sequence)) (anchor : Int)
    (which : Which) (h : ∀ p ∈ pairs, refWF p) :
    ∀ q ∈ _split_overlapping pairs anchor which, refWF q := by
  intro q hq
  simp only [_split_overlapping, List.mem_flatMap] at hq
  obtain ⟨p, hp, hmem⟩ := hq
  by_cases hc : p.1.start < anchor ∧ anchor < p.1.end_
  · rw [if_pos hc] at hmem
    cases which with
    | left =>
      simp only [List.mem_singleton] at hmem
      subst hmem
      exact refWF_slice_front p.1 p.2 (anchor - p.1.start)
    | right =>
      simp only [List.mem_singleton] at hmem
      subst hmem
      exact refWF_slice_back p.1 p.2 (anchor - p.1.start)
    | both =>
      simp only [List.mem_cons, List.mem_singleton, List.not_mem_nil,
        or_false] at hmem
      rcases hmem with rfl | rfl
      · exact refWF_slice_front p.1 p.2 (anchor - p.1.start)
      · exact refWF_slice_back p.1 p.2 (anchor - p.1.start)
  · rw [if_neg hc] at hmem
    simp only [List.mem_singleton] at hmem
    subst hmem
    exact h p hp

/-! ### Stable sort lemmas -/

open VariantSeqExtractor in
theorem perm_insertBy {α : Type} (le : α → α → Bool) (x : α) (l : List α) :
    (insertBy le x l).Perm (x :: l) := by
  induction l with
  | nil => exact List.Perm.refl _
  | cons y ys ih =>
    rw [insertBy]
    split
    · exact List.Perm.refl _
    · exact (ih.cons y).trans (List.Perm.swap x y ys)

open VariantSeqExtractor in
theorem perm_stableSortBy {α : Type} (le : α → α → Bool) (l : List α) :
    (stableSortBy le l).Perm l := by
  induction l with
  | nil => exact List.Perm.refl _
  | cons x xs ih =>
    rw [stableSortBy]
    exact (perm_insertBy le x (stableSortBy le xs)).trans (ih.cons x)

open VariantSeqExtractor in
theorem pairwise_insertBy {α : Type} (R : α → α → Prop) (le : α → α → Bool)
    (hleR : ∀ a b, le a b = true → R a b)
    (htot : ∀ a b, le a b = false → le b a = true)
    (htrans : ∀ a b c, R a b → R b c → R a c)
    (x : α) (l : List α) (hl : l.Pairwise R) :
    (insertBy le x l).Pairwise R := by
  induction l with
  | nil => simp [insertBy]
  | cons y ys ih =>
    rw [insertBy]
    rcases List.pairwise_cons.mp hl with ⟨hy, hys⟩
    split
    · rename_i hxy
      refine List.pairwise_cons.mpr ⟨?_, hl⟩
      intro z hz
      rcases List.mem_cons.mp hz with rfl | hz
      · exact hleR x z hxy
      · exact htrans x y z (hleR x y hxy) (hy z hz)
    · rename_i hxy
      have hyx : le y x = true := htot x y (by simpa using hxy)
      refine List.pairwise_cons.mpr ⟨?_, ih hys⟩
      intro z hz
      rcases (perm_insertBy le x ys).mem_iff.mp hz with hz'
      rcases List.mem_cons.mp hz' with rfl | hz''
      · exact hleR y z hyx
      · exact hy z hz''

open VariantSeqExtractor in
theorem pairwise_stableSortBy {α : Type} (R : α → α → Prop)
    (le : α → α → Bool)
    (hleR : ∀ a b, le a b = true → R a b)
    (htot : ∀ a b, le a b = false → le b a = true)
    (htrans : ∀ a b c, R a b → R b c → R a c)
    (l : List α) : (stableSortBy le l).Pairwise R := by
  induction l with
  | nil => simp [stableSortBy]
  | cons x xs ih =>
    rw [stableSortBy]
    exact pairwise_insertBy R le hleR htot htrans x _ ih

open VariantSeqExtractor in
theorem filter_insertBy_pos {α : Type} (le : α → α → Bool) (p : α → Bool)
    (x : α) (hpx : p x = true)
    (hcomp : ∀ y, le x y = false → p y = false) (l : List α) :
    (insertBy le x l).filter p = x :: l.filter p := by
  induction l with
  | nil => simp [insertBy, hpx]
  | cons y ys ih =>
    rw [insertBy]
    split
    · simp [List.filter_cons, hpx]
    · rename_i hxy
      have hpy : p y = false := hcomp y (by simpa using hxy)
      simp only [List.filter_cons, hpy, Bool.false_eq_true, if_false, ih]

open VariantSeqExtractor in
theorem filter_insertBy_neg {α : Type} (le : α → α → Bool) (p : α → Bool)
    (x : α) (hpx : p x = false) (l : List α) :
    (insertBy le x l).filter p = l.filter p := by
  induction l with
  | nil => simp [insertBy, hpx]
  | cons y ys ih =>
    rw [insertBy]
    split
    · simp [List.filter_cons, hpx]
    · simp only [List.filter_cons, ih]

open VariantSeqExtractor in
theorem filter_stableSortBy {α : Type} (le : α → α → Bool) (p : α → Bool)
    (hcomp : ∀ x y, p x = true → le x y = false → p y = false)
    (l : List α) :
    (stableSortBy le l).filter p = l.filter p := by
  induction l with
  | nil => rfl
  | cons x xs ih =>
    rw [stableSortBy]
    by_cases hpx : p x = true
    · rw [filter_insertBy_pos le p x hpx (fun y hy => hcomp x y hpx hy), ih,
        List.filter_cons_of_pos hpx]
    · have hpx' : p x = false := by
        cases hval : p x
        · rfl
        · exact absurd hval hpx
      rw [filter_insertBy_neg le p x hpx', ih,
        List.filter_cons_of_neg (by simp [hpx'])]

/-! ### `extract` produces the plan value -/

open VariantSeqExtractor in
theorem extractFrom_eq_plan (genome : Int → Char) (interval : Interval)
    (variants : List Variant) (anchor : Int) (fixed_len : Bool) :
    extractFrom genome interval variants anchor fixed_len =
      .ok (extractPlan genome interval variants anchor fixed_len) := by
  simp only [extractFrom, extractPlan, pipelinePairs, _downstream_builder,
    _upstream_builder, concat_restore]

open VariantSeqExtractor in
theorem cut_to_fix_len_len (down_str up_str : List Char)
    (interval : Interval) (A : Int)
    (h1 : interval.start ≤ A) (h2 : A ≤ interval.end_)
    (hd : A - interval.start ≤ (down_str.length : Int))
    (hu : interval.end_ - A ≤ (up_str.length : Int)) :
    (((_cut_to_fix_len down_str up_str interval A).1.length : Int) =
      A - interval.start) ∧
    (((_cut_to_fix_len down_str up_str interval A).2.length : Int) =
      interval.end_ - A) := by
  simp only [_cut_to_fix_len]
  constructor
  · by_cases h0 : A - interval.start ≠ 0
    · rw [if_pos h0, pySlice_last down_str (A - interval.start) (by omega)]
      simp only [List.length_drop]
      omega
    · rw [if_neg h0]
      simp only [List.length_nil, Nat.cast_zero]
      omega
  · by_cases h0 : interval.end_ - A ≠ 0
    · rw [if_pos h0, pySlice_take up_str (interval.end_ - A) (by omega)]
      simp only [List.length_take]
      omega
    · rw [if_neg h0]
      simp only [List.length_nil, Nat.cast_zero]
      omega

open VariantSeqExtractor in
theorem mem_downstream_variants (vp : List (Sequence × Sequence)) (A : Int) :
    ∀ p ∈ downstream_variants vp A, p ∈ vp ∧ p.1.start < A := by
  intro p hp
  rw [downstream_variants] at hp
  have h1 := (perm_stableSortBy _ _).mem_iff.mp hp
  have h2 := List.mem_filter.mp h1
  exact ⟨h2.1, by simpa using h2.2⟩

open VariantSeqExtractor in
theorem mem_upstream_variants (vp : List (Sequence × Sequence)) (A : Int) :
    ∀ p ∈ upstream_variants vp A, p ∈ vp ∧ A ≤ p.1.start := by
  intro p hp
  rw [upstream_variants] at hp
  have h1 := (perm_stableSortBy _ _).mem_iff.mp hp
  have h2 := List.mem_filter.mp h1
  exact ⟨h2.1, by simpa using h2.2⟩

open VariantSeqExtractor in
theorem fetch_start (genome : Int → Char) (interval : Interval)
    (istart iend : Int) :
    (_fetch genome interval istart iend).start = istart := rfl

open VariantSeqExtractor in
theorem fetch_seq_length (genome : Int → Char) (interval : Interval)
    (istart iend : Int) :
    (((_fetch genome interval istart iend).seq.length : Nat) : Int) =
      max 0 (iend - istart) := by
  simp only [_fetch, List.length_map, List.length_range]
  omega

open VariantSeqExtractor in
theorem extractPlan_fixed_length (genome : Int → Char) (interval : Interval)
    (variants : List Variant) (A : Int)
    (h1 : interval.start ≤ A) (h2 : A ≤ interval.end_)
    (hwf : ∀ p ∈ pipelinePairs interval A true variants, refWF p) :
    ((extractPlan genome interval variants A true).length : Int) =
      interval.end_ - interval.start := by
  simp only [extractPlan]
  set vp := pipelinePairs interval A true variants with hvp
  set ups := upstream_variants vp A with hups
  set downs := downstream_variants vp A with hdowns
  set istart := interval.start + negSum downs with histart
  set iend := interval.end_ - negSum ups with hiend
  have hwin : fetchWindow interval ups downs true = (istart, iend) := by
    rw [fetchWindow, if_pos rfl, updated_interval_eq]
  have hw1 : (fetchWindow interval ups downs true).1 = istart := by
    rw [hwin]
  have hw2 : (fetchWindow interval ups downs true).2 = iend := by
    rw [hwin]
  rw [hw1, hw2, if_pos trivial]
  have hnd := negSum_nonpos downs
  have hnu := negSum_nonpos ups
  set seq := _fetch genome interval istart iend with hseq
  have hsstart : seq.start = istart := rfl
  have hslen : (seq.seq.length : Int) = iend - seq.start := by
    rw [hsstart, hseq, fetch_seq_length]
    omega
  have hdownlen := downstreamLoop_len_ge seq A iend hslen
    (by omega) interval.chrom downs A
    (fun p hp => ⟨hwf p (mem_downstream_variants vp A p hp).1,
      (mem_downstream_variants vp A p hp).2⟩)
    (le_refl A)
  have huplen := upstreamLoop_len_ge seq A iend hslen interval.chrom ups A
    (fun p hp => ⟨hwf p (mem_upstream_variants vp A p hp).1,
      (mem_upstream_variants vp A p hp).2⟩)
    (by rw [hsstart]; omega) (by rw [hsstart]; omega)
  rw [hsstart] at hdownlen
  have hd : A - interval.start ≤
      ((((_downstream_builder downs interval A istart).map
        (resolveText seq)).flatten).length : Int) := by
    rw [_downstream_builder, length_flatten_map_reverse]
    omega
  have hu : interval.end_ - A ≤
      ((((_upstream_builder ups interval A iend).map
        (resolveText seq)).flatten).length : Int) := by
    rw [_upstream_builder]
    omega
  have hcut := cut_to_fix_len_len _ _ interval A h1 h2 hd hu
  by_cases hstrand : interval.strand = "-"
  · rw [if_pos hstrand]
    simp only [reverseComplement, List.length_reverse, List.length_map,
      List.length_append]
    push_cast
    omega
  · rw [if_neg hstrand]
    simp only [List.length_append]
    push_cast
    omega

open VariantSeqExtractor in
theorem refWF_pipelinePairs (interval : Interval) (A : Int) (fl : Bool)
    (variants : List Variant) :
    ∀ p ∈ pipelinePairs interval A fl variants, refWF p := by
  cases fl
  · intro p hp
    simp only [pipelinePairs, Bool.not_false, if_pos] at hp
    exact refWF_split _ interval.end_ .left
      (refWF_split _ interval.start .right
        (refWF_split _ A .both (refWF_variant_to_sequence variants)))
      p hp
  · intro p hp
    simp only [pipelinePairs, Bool.not_true, Bool.false_eq_true,
      if_false] at hp
    exact refWF_split _ A .both (refWF_variant_to_sequence variants) p hp

/-! ### Claim theorems -/

/-- C1: for every interval with `end >= start`, every anchor and every
variant list, `extract(interval, variants, anchor, fixed_len=True)`
returns a string whose length is exactly `interval.end - interval.start`. -/
theorem extract_fixed_len_length_invariant (genome : Int → Char)
    (interval : Interval) (variants : List Variant) (anchor : Int)
    (h : interval.start ≤ interval.end_) :
    ∃ s, VariantSeqExtractor.extract genome interval variants anchor true =
        .ok s ∧ (s.length : Int) = interval.end_ - interval.start := by
  refine ⟨extractPlan genome interval variants
    (VariantSeqExtractor.clampedAnchor interval anchor) true, ?_, ?_⟩
  · rw [VariantSeqExtractor.extract, extractFrom_eq_plan]
  · have hA1 : interval.start ≤
        VariantSeqExtractor.clampedAnchor interval anchor := by
      rw [VariantSeqExtractor.clampedAnchor]
      omega
    have hA2 : VariantSeqExtractor.clampedAnchor interval anchor ≤
        interval.end_ := by
      rw [VariantSeqExtractor.clampedAnchor]
      omega
    exact extractPlan_fixed_length genome interval variants _ hA1 hA2
      (refWF_pipelinePairs interval _ true variants)

/-- Witness for C1 at a concrete input. -/
theorem extract_fixed_len_length_invariant_witness :
    (0 : Int) ≤ 3 ∧
    ∃ s, VariantSeqExtractor.extract (fun _ => 'A') ⟨"chr1", 0, 3, "+"⟩
        [⟨"chr1", 2, ['A', 'A'], ['C'], []⟩] 1 true = .ok s ∧
      (s.length : Int) = 3 - 0 :=
  ⟨by norm_num,
   extract_fixed_len_length_invariant (fun _ => 'A') ⟨"chr1", 0, 3, "+"⟩
     [⟨"chr1", 2, ['A', 'A'], ['C'], []⟩] 1 (by norm_num)⟩

theorem resolveText_itv_eq (w : Sequence) (c str : String) (s e : Int) :
    resolveText w (.itv ⟨c, s, e, str⟩) =
      pySlice w.seq (some (s - w.start))
        (some ((s - w.start) + max 0 (e - s))) := rfl

open VariantSeqExtractor in
theorem cut_to_fix_len_exact (down_str up_str : List Char)
    (interval : Interval) (A : Int)
    (hd : (down_str.length : Int) = A - interval.start)
    (hu : (up_str.length : Int) = interval.end_ - A) :
    _cut_to_fix_len down_str up_str interval A = (down_str, up_str) := by
  simp only [_cut_to_fix_len, Prod.mk.injEq]
  constructor
  · by_cases h0 : A - interval.start ≠ 0
    · rw [if_pos h0, pySlice_last down_str (A - interval.start) (by omega),
        show ((down_str.length : Int) - (A - interval.start)).toNat = 0 from
          by omega]
      exact List.drop_zero _
    · rw [if_neg h0]
      symm
      exact List.length_eq_zero.mp (by omega)
  · by_cases h0 : interval.end_ - A ≠ 0
    · rw [if_pos h0, pySlice_take up_str _ (by omega),
        show (interval.end_ - A).toNat = up_str.length from by omega]
      exact List.take_length _
    · rw [if_neg h0]
      symm
      exact List.length_eq_zero.mp (by omega)

open VariantSeqExtractor in
theorem extractPlan_empty (genome : Int → Char) (interval : Interval)
    (A : Int) (h1 : interval.start ≤ A) (h2 : A ≤ interval.end_) :
    extractPlan genome interval [] A true =
      (if interval.strand = "-" then
        reverseComplement (reference_text genome interval)
      else reference_text genome interval) := by
  simp only [extractPlan]
  rw [show pipelinePairs interval A true [] = [] from rfl,
    show upstream_variants ([] : List (Sequence × Sequence)) A = [] from rfl,
    show downstream_variants ([] : List (Sequence × Sequence)) A = []
      from rfl]
  have hwin : fetchWindow interval [] [] true =
      (interval.start, interval.end_) := by
    rw [fetchWindow, if_pos rfl, updated_interval_eq, negSum_nil]
    simp
  have hw1 : (fetchWindow interval ([] : List (Sequence × Sequence)) []
      true).1 = interval.start := by rw [hwin]
  have hw2 : (fetchWindow interval ([] : List (Sequence × Sequence)) []
      true).2 = interval.end_ := by rw [hwin]
  rw [hw1, hw2, if_pos trivial]
  set seqv := _fetch genome interval interval.start interval.end_ with hseq
  rw [show _downstream_builder [] interval A interval.start =
      [.itv ⟨interval.chrom, interval.start, A, "."⟩] from rfl,
    show _upstream_builder [] interval A interval.end_ =
      [.itv ⟨interval.chrom, A, interval.end_, "."⟩] from rfl]
  simp only [List.map_cons, List.map_nil, List.flatten_cons,
    List.flatten_nil, List.append_nil]
  have hlen : (seqv.seq.length : Int) = interval.end_ - interval.start := by
    rw [hseq, fetch_seq_length]
    omega
  have hdtext : resolveText seqv
      (.itv ⟨interval.chrom, interval.start, A, "."⟩) =
      seqv.seq.take (A - interval.start).toNat := by
    rw [resolveText_itv_eq,
      show interval.start - seqv.start = 0 from by
        rw [hseq, fetch_start]; exact sub_self _,
      show (0 : Int) + max 0 (A - interval.start) = A - interval.start from
        by omega]
    exact pySlice_zero_take _ _ (by omega)
  have hutext : resolveText seqv
      (.itv ⟨interval.chrom, A, interval.end_, "."⟩) =
      seqv.seq.drop (A - interval.start).toNat := by
    rw [resolveText_itv_eq,
      show A - seqv.start = A - interval.start from by rw [hseq, fetch_start],
      show (A - interval.start) + max 0 (interval.end_ - A) =
        interval.end_ - interval.start from by omega,
      pySlice_eq_drop_take seqv.seq (by omega) (by omega) (by omega),
      show (interval.end_ - interval.start).toNat = seqv.seq.length from
        by omega,
      List.take_length]
  rw [hdtext, hutext]
  rw [cut_to_fix_len_exact _ _ interval A
    (by rw [List.length_take]; push_cast; omega)
    (by rw [List.length_drop]; omega)]
  rw [show ((seqv.seq.take (A - interval.start).toNat,
      seqv.seq.drop (A - interval.start).toNat) :
      List Char × List Char).1 = seqv.seq.take (A - interval.start).toNat
      from rfl,
    show ((seqv.seq.take (A - interval.start).toNat,
      seqv.seq.drop (A - interval.start).toNat) :
      List Char × List Char).2 = seqv.seq.drop (A - interval.start).toNat
      from rfl,
    List.take_append_drop]
  rw [show seqv.seq = reference_text genome interval from by rw [hseq]; rfl]

/-- C2: with an empty variant collection, fixed-length `extract` returns
exactly the reference bases of the interval, reverse-complemented for a
minus-strand interval and unchanged otherwise. -/
theorem extract_empty_variants_identity (genome : Int → Char)
    (interval : Interval) (anchor : Int)
    (h : interval.start ≤ interval.end_) :
    VariantSeqExtractor.extract genome interval [] anchor true =
      .ok (if interval.strand = "-" then
            VariantSeqExtractor.reverseComplement
              (reference_text genome interval)
          else reference_text genome interval) := by
  rw [VariantSeqExtractor.extract, extractFrom_eq_plan,
    extractPlan_empty genome interval _
      (by rw [VariantSeqExtractor.clampedAnchor]; omega)
      (by rw [VariantSeqExtractor.clampedAnchor]; omega)]

/-- Witness for C2 at a concrete input. -/
theorem extract_empty_variants_identity_witness :
    (0 : Int) ≤ 2 ∧
    VariantSeqExtractor.extract (fun _ => 'A') ⟨"c", 0, 2, "-"⟩ [] 5 true =
      .ok (if (Interval.mk "c" 0 2 "-").strand = "-" then
            VariantSeqExtractor.reverseComplement
              (reference_text (fun _ => 'A') ⟨"c", 0, 2, "-"⟩)
          else reference_text (fun _ => 'A') ⟨"c", 0, 2, "-"⟩) :=
  ⟨by norm_num,
   extract_empty_variants_identity (fun _ => 'A') ⟨"c", 0, 2, "-"⟩ 5
     (by norm_num)⟩

theorem deletionSum_eq_neg_negSum (l : List (Sequence × Sequence)) :
    deletionSum l = -negSum l := by
  induction l with
  | nil => rfl
  | cons p t ih =>
    have h1 : deletionSum (p :: t) =
        (if pairDelta p < 0 then -pairDelta p else 0) + deletionSum t := by
      simp [deletionSum]
    rw [h1, ih, negSum_cons]
    split <;> omega

/-- C4: in fixed mode the fetch window extends `iend` by `|delta|` for
every upstream net deletion and lowers `istart` by `|delta|` for every
downstream net deletion (zero or positive deltas change neither bound);
in variable-length mode the window is exactly the interval bounds. -/
theorem updated_interval_window (interval : Interval)
    (U D : List (Sequence × Sequence)) :
    VariantSeqExtractor._updated_interval interval U D =
      (interval.start - deletionSum D, interval.end_ + deletionSum U) ∧
    VariantSeqExtractor.fetchWindow interval U D false =
      (interval.start, interval.end_) := by
  constructor
  · rw [updated_interval_eq, deletionSum_eq_neg_negSum,
      deletionSum_eq_neg_negSum, Prod.mk.injEq]
    exact ⟨by ring, by ring⟩
  · rw [VariantSeqExtractor.fetchWindow, if_neg (by simp)]

/-- C6: an anchor below `interval.start` behaves exactly like
`interval.start`, and an anchor above `interval.end` exactly like
`interval.end` (the anchor is clamped before any other processing). -/
theorem extract_anchor_clamp (genome : Int → Char) (interval : Interval)
    (variants : List Variant) (fixed_len : Bool) (a : Int) :
    (a < interval.start →
      VariantSeqExtractor.extract genome interval variants a fixed_len =
      VariantSeqExtractor.extract genome interval variants interval.start
        fixed_len) ∧
    (interval.end_ < a →
      VariantSeqExtractor.extract genome interval variants a fixed_len =
      VariantSeqExtractor.extract genome interval variants interval.end_
        fixed_len) := by
  constructor
  · intro ha
    rw [VariantSeqExtractor.extract, VariantSeqExtractor.extract]
    congr 1
    rw [VariantSeqExtractor.clampedAnchor, VariantSeqExtractor.clampedAnchor]
    omega
  · intro ha
    rw [VariantSeqExtractor.extract, VariantSeqExtractor.extract]
    congr 1
    rw [VariantSeqExtractor.clampedAnchor, VariantSeqExtractor.clampedAnchor]
    omega

/-- Witness for C6 at a concrete input. -/
theorem extract_anchor_clamp_witness :
    ((-7 : Int) < 0 ∧
      VariantSeqExtractor.extract (fun _ => 'G') ⟨"c", 0, 2, "."⟩ [] (-7)
        true =
      VariantSeqExtractor.extract (fun _ => 'G') ⟨"c", 0, 2, "."⟩ [] 0
        true) ∧
    ((2 : Int) < 9 ∧
      VariantSeqExtractor.extract (fun _ => 'G') ⟨"c", 0, 2, "."⟩ [] 9
        true =
      VariantSeqExtractor.extract (fun _ => 'G') ⟨"c", 0, 2, "."⟩ [] 2
        true) :=
  ⟨⟨by norm_num,
    (extract_anchor_clamp (fun _ => 'G') ⟨"c", 0, 2, "."⟩ [] true (-7)).1
      (by norm_num)⟩,
   ⟨by norm_num,
    (extract_anchor_clamp (fun _ => 'G') ⟨"c", 0, 2, "."⟩ [] true 9).2
      (by norm_num)⟩⟩

/-- C7: the genotype-presence predicate holds exactly for codes other
than 0 and 2, and this same predicate decides per-sample filtering in
`fetch_variants` and pair filtering in `get_samples`. -/
theorem has_variant_gt_rule :
    (∀ g : Int, _has_variant_gt g = true ↔ (g ≠ 0 ∧ g ≠ 2)) ∧
    (∀ (vcf : MultiSampleVCF) (interval : Interval) (s : String),
      vcf.fetch_variants interval (some s) =
        (vcf.query (vcf._region interval)).filter
          (fun v => vcf._has_variant v s)) ∧
    (∀ (vcf : MultiSampleVCF) (v : Variant) (x : String × Int),
      x ∈ vcf.get_samples v ↔
        x ∈ vcf.samples.zip v.gt_types ∧ _has_variant_gt x.2 = true) := by
  refine ⟨?_, ?_, ?_⟩
  · intro g
    simp [_has_variant_gt, Bool.and_eq_true, bne_iff_ne]
  · intro vcf interval s
    rfl
  · intro vcf v x
    exact List.mem_filter

/-- C8: `concat` on a builder still holding an unresolved
reference-reference segment fails with the `TypeError`, while after
`restore` it succeeds and returns the concatenation of the segment texts
in order. -/
theorem concat_unresolved_error_restored_ok (sb : List Segment)
    (w : Sequence) :
    ((∃ s ∈ sb, isItv s = true) →
      IntervalSeqBuilder.concat sb =
        .error IntervalSeqBuilder.concatError) ∧
    IntervalSeqBuilder.concat (IntervalSeqBuilder.restore sb w) =
      .ok (((IntervalSeqBuilder.restore sb w).map segText).flatten) := by
  constructor
  · exact concat_error_of_itv sb
  · rw [concat_restore]
    congr 1
    rw [IntervalSeqBuilder.restore, List.map_map]
    rfl

/-- Witness for C8 at a concrete input. -/
theorem concat_unresolved_error_restored_ok_witness :
    (∃ s ∈ [Segment.itv ⟨"c", 0, 1, "."⟩], isItv s = true) ∧
    IntervalSeqBuilder.concat [Segment.itv ⟨"c", 0, 1, "."⟩] =
      .error IntervalSeqBuilder.concatError :=
  ⟨by decide,
   (concat_unresolved_error_restored_ok [Segment.itv ⟨"c", 0, 1, "."⟩]
     ⟨"c", [], 0, 0⟩).1 (by decide)⟩

/-- C10: `restore` resolves a degenerate reference-reference segment
(`end ≤ start`) to a zero-length literal (the `max(0, end - start)`
clamp), never to a wrap-around slice. -/
theorem restore_degenerate_resolves_empty (w : Sequence) (c str : String)
    (s e : Int) (h : e ≤ s) :
    IntervalSeqBuilder.restoreSeg w (.itv ⟨c, s, e, str⟩) =
      .seq (w.slice (some (s - w.start)) (some (s - w.start))) ∧
    resolveText w (.itv ⟨c, s, e, str⟩) = [] := by
  have hm : max (0 : Int) (e - s) = 0 := by omega
  constructor
  · simp only [IntervalSeqBuilder.restoreSeg]
    rw [hm, add_zero]
  · rw [resolveText_itv_eq, hm, add_zero, pySlice_same]

/-- Witness for C10 at a concrete input. -/
theorem restore_degenerate_resolves_empty_witness :
    ((3 : Int) ≤ 5) ∧
    (IntervalSeqBuilder.restoreSeg ⟨"c", ['A', 'C'], 0, 2⟩
        (.itv ⟨"c", 5, 3, "."⟩) =
      .seq ((⟨"c", ['A', 'C'], 0, 2⟩ : Sequence).slice (some (5 - (0:Int)))
        (some (5 - (0:Int)))) ∧
     resolveText ⟨"c", ['A', 'C'], 0, 2⟩ (.itv ⟨"c", 5, 3, "."⟩) = []) :=
  ⟨by norm_num,
   restore_degenerate_resolves_empty ⟨"c", ['A', 'C'], 0, 2⟩ "c" "." 5 3
     (by norm_num)⟩

/-- C5: after splitting, the pairs with `ref.start >= anchor` form the
upstream group sorted ascending by start, those with `ref.start < anchor`
form the downstream group sorted descending by start, and both sorts are
stable: pairs with equal starts keep their input order (their filtered
subsequence is unchanged). -/
theorem partition_and_stable_sort (vp : List (Sequence × Sequence))
    (A : Int) :
    (VariantSeqExtractor.upstream_variants vp A).Perm
      (vp.filter (fun x => decide (A ≤ x.1.start))) ∧
    (∀ p ∈ VariantSeqExtractor.upstream_variants vp A, A ≤ p.1.start) ∧
    (VariantSeqExtractor.upstream_variants vp A).Pairwise
      (fun x y => x.1.start ≤ y.1.start) ∧
    (∀ s : Int,
      (VariantSeqExtractor.upstream_variants vp A).filter
          (fun x => decide (x.1.start = s)) =
        (vp.filter (fun x => decide (A ≤ x.1.start))).filter
          (fun x => decide (x.1.start = s))) ∧
    (VariantSeqExtractor.downstream_variants vp A).Perm
      (vp.filter (fun x => decide (x.1.start < A))) ∧
    (∀ p ∈ VariantSeqExtractor.downstream_variants vp A, p.1.start < A) ∧
    (VariantSeqExtractor.downstream_variants vp A).Pairwise
      (fun x y => y.1.start ≤ x.1.start) ∧
    (∀ s : Int,
      (VariantSeqExtractor.downstream_variants vp A).filter
          (fun x => decide (x.1.start = s)) =
        (vp.filter (fun x => decide (x.1.start < A))).filter
          (fun x => decide (x.1.start = s))) := by
  refine ⟨?_, ?_, ?_, ?_, ?_, ?_, ?_, ?_⟩
  · rw [VariantSeqExtractor.upstream_variants]
    exact perm_stableSortBy _ _
  · exact fun p hp => (mem_upstream_variants vp A p hp).2
  · rw [VariantSeqExtractor.upstream_variants]
    exact pairwise_stableSortBy
      (fun (x y : Sequence × Sequence) => x.1.start ≤ y.1.start)
      (fun a b => decide (a.1.start ≤ b.1.start))
      (fun a b hab => of_decide_eq_true hab)
      (fun a b hab => decide_eq_true (by
        have h : ¬(a.1.start ≤ b.1.start) := of_decide_eq_false hab
        omega))
      (fun a b c h1 h2 => le_trans h1 h2) _
  · intro s
    rw [VariantSeqExtractor.upstream_variants]
    exact filter_stableSortBy
      (fun (a b : Sequence × Sequence) => decide (a.1.start ≤ b.1.start))
      (fun x => decide (x.1.start = s))
      (fun x y hx hxy => decide_eq_false (by
        have h1 : x.1.start = s := of_decide_eq_true hx
        have h2 : ¬(x.1.start ≤ y.1.start) := of_decide_eq_false hxy
        omega)) _
  · rw [VariantSeqExtractor.downstream_variants]
    exact perm_stableSortBy _ _
  · exact fun p hp => (mem_downstream_variants vp A p hp).2
  · rw [VariantSeqExtractor.downstream_variants]
    exact pairwise_stableSortBy
      (fun (x y : Sequence × Sequence) => y.1.start ≤ x.1.start)
      (fun a b => decide (b.1.start ≤ a.1.start))
      (fun a b hab => of_decide_eq_true hab)
      (fun a b hab => decide_eq_true (by
        have h : ¬(b.1.start ≤ a.1.start) := of_decide_eq_false hab
        omega))
      (fun a b c h1 h2 => le_trans h2 h1) _
  · intro s
    rw [VariantSeqExtractor.downstream_variants]
    exact filter_stableSortBy
      (fun (a b : Sequence × Sequence) => decide (b.1.start ≤ a.1.start))
      (fun x => decide (x.1.start = s))
      (fun x y hx hxy => decide_eq_false (by
        have h1 : x.1.start = s := of_decide_eq_true hx
        have h2 : ¬(y.1.start ≤ x.1.start) := of_decide_eq_false hxy
        omega)) _

theorem take_min_length {α : Type} (s : List α) (k : Nat) :
    s.take (min k s.length) = s.take k := by
  rcases Nat.le_total k s.length with h | h
  · rw [Nat.min_eq_left h]
  · rw [Nat.min_eq_right h, List.take_length, List.take_of_length_le h]

theorem drop_min_length {α : Type} (s : List α) (k : Nat) :
    s.drop (min k s.length) = s.drop k := by
  rcases Nat.le_total k s.length with h | h
  · rw [Nat.min_eq_left h]
  · rw [Nat.min_eq_right h, List.drop_length, List.drop_of_length_le h]

theorem slice_front_eq (r : Sequence) (m : Int) (h0 : 0 ≤ m) :
    r.slice none (some m) =
      ⟨r.name, r.seq.take m.toNat, r.start,
        r.start + ((min m.toNat r.seq.length : Nat) : Int)⟩ := by
  simp only [Sequence.slice, sliceIndex, List.drop_zero]
  rw [if_neg (by omega), take_min_length]
  norm_num

theorem slice_back_eq (r : Sequence) (m : Int) (h0 : 0 ≤ m) :
    r.slice (some m) none =
      ⟨r.name, r.seq.drop m.toNat,
        r.start + ((min m.toNat r.seq.length : Nat) : Int),
        r.start + (r.seq.length : Int)⟩ := by
  simp only [Sequence.slice, sliceIndex]
  rw [if_neg (by omega), List.take_length, drop_min_length]

/-- C3: `_split_overlapping` distributes over the pair stream; a pair
whose reference segment does not strictly contain the split point
(including pairs merely touching it at their start or end) passes
through unchanged; a strictly containing pair is replaced by the pieces
cut at `mid = p - ref.start` with Python slice semantics, the pieces
selected by `which` (left piece then right piece for `both`). -/
theorem split_overlapping_contract :
    (∀ (p : Int) (which : VariantSeqExtractor.Which)
        (xs ys : List (Sequence × Sequence)),
      VariantSeqExtractor._split_overlapping (xs ++ ys) p which =
        VariantSeqExtractor._split_overlapping xs p which ++
        VariantSeqExtractor._split_overlapping ys p which) ∧
    (∀ (p : Int) (which : VariantSeqExtractor.Which) (r a : Sequence),
      ¬(r.start < p ∧ p < r.end_) →
      VariantSeqExtractor._split_overlapping [(r, a)] p which = [(r, a)]) ∧
    (∀ (p : Int) (r a : Sequence), refWF (r, a) →
      r.start < p → p < r.end_ →
      (VariantSeqExtractor._split_overlapping [(r, a)] p .both =
        [(⟨r.name, r.seq.take (p - r.start).toNat, r.start, p⟩,
          ⟨a.name, a.seq.take (p - r.start).toNat, a.start,
            a.start + ((min (p - r.start).toNat a.seq.length : Nat) : Int)⟩),
         (⟨r.name, r.seq.drop (p - r.start).toNat, p, r.end_⟩,
          ⟨a.name, a.seq.drop (p - r.start).toNat,
            a.start + ((min (p - r.start).toNat a.seq.length : Nat) : Int),
            a.start + (a.seq.length : Int)⟩)]) ∧
      (VariantSeqExtractor._split_overlapping [(r, a)] p .left =
        [(⟨r.name, r.seq.take (p - r.start).toNat, r.start, p⟩,
          ⟨a.name, a.seq.take (p - r.start).toNat, a.start,
            a.start +
              ((min (p - r.start).toNat a.seq.length : Nat) : Int)⟩)]) ∧
      (VariantSeqExtractor._split_overlapping [(r, a)] p .right =
        [(⟨r.name, r.seq.drop (p - r.start).toNat, p, r.end_⟩,
          ⟨a.name, a.seq.drop (p - r.start).toNat,
            a.start + ((min (p - r.start).toNat a.seq.length : Nat) : Int),
            a.start + (a.seq.length : Int)⟩)])) := by
  refine ⟨?_, ?_, ?_⟩
  · intro p which xs ys
    rw [VariantSeqExtractor._split_overlapping,
      VariantSeqExtractor._split_overlapping,
      VariantSeqExtractor._split_overlapping, List.flatMap_append]
  · intro p which r a h
    simp only [VariantSeqExtractor._split_overlapping, List.flatMap_cons,
      List.flatMap_nil, List.append_nil]
    rw [if_neg h]
  · intro p r a hwf hs he
    have hwf' : r.end_ = r.start + (r.seq.length : Int) := hwf
    have hrl : r.start +
        ((min (p - r.start).toNat r.seq.length : Nat) : Int) = p := by
      omega
    have hrlen : r.start + (r.seq.length : Int) = r.end_ := by omega
    refine ⟨?_, ?_, ?_⟩
    · simp only [VariantSeqExtractor._split_overlapping, List.flatMap_cons,
        List.flatMap_nil, List.append_nil]
      rw [if_pos ⟨hs, he⟩]
      rw [slice_front_eq r _ (by omega), slice_front_eq a _ (by omega),
        slice_back_eq r _ (by omega), slice_back_eq a _ (by omega),
        hrl, hrlen]
    · simp only [VariantSeqExtractor._split_overlapping, List.flatMap_cons,
        List.flatMap_nil, List.append_nil]
      rw [if_pos ⟨hs, he⟩]
      rw [slice_front_eq r _ (by omega), slice_front_eq a _ (by omega), hrl]
    · simp only [VariantSeqExtractor._split_overlapping, List.flatMap_cons,
        List.flatMap_nil, List.append_nil]
      rw [if_pos ⟨hs, he⟩]
      rw [slice_back_eq r _ (by omega), slice_back_eq a _ (by omega),
        hrl, hrlen]

/-- Witness for C3 at a concrete input. -/
theorem split_overlapping_contract_witness :
    refWF ((⟨"c", ['A', 'B'], 0, 2⟩ : Sequence),
           (⟨"c", ['C'], 0, 1⟩ : Sequence)) ∧
    ((0 : Int) < 1 ∧ (1 : Int) < 2) ∧
    VariantSeqExtractor._split_overlapping
        [((⟨"c", ['A', 'B'], 0, 2⟩ : Sequence),
          (⟨"c", ['C'], 0, 1⟩ : Sequence))] 1 .both =
      [((⟨"c", ['A'], 0, 1⟩ : Sequence), (⟨"c", ['C'], 0, 1⟩ : Sequence)),
       ((⟨"c", ['B'], 1, 2⟩ : Sequence), (⟨"c", [], 1, 1⟩ : Sequence))] :=
  ⟨by unfold refWF; decide, ⟨by decide, by decide⟩,
   (split_overlapping_contract.2.2 1 ⟨"c", ['A', 'B'], 0, 2⟩
     ⟨"c", ['C'], 0, 1⟩ (by unfold refWF; decide) (by decide)
     (by decide)).1⟩

/-! ### Decimal rendering and identity-string parsing -/

theorem digitChar_isDigit {d : Nat} (h : d < 10) :
    (digitChar d).isDigit = true := by
  interval_cases d <;> decide

theorem digitChar_toNat {d : Nat} (h : d < 10) :
    (digitChar d).toNat = 48 + d := by
  interval_cases d <;> decide

theorem natCharsCore_acc (fuel : Nat) :
    ∀ (n : Nat) (acc : List Char), n < fuel →
      natCharsCore fuel n acc = natCharsCore fuel n [] ++ acc := by
  induction fuel with
  | zero =>
    intro n acc h
    omega
  | succ f ih =>
    intro n acc h
    simp only [natCharsCore]
    by_cases h10 : n < 10
    · rw [if_pos h10, if_pos h10]
      simp
    · rw [if_neg h10, if_neg h10,
        ih (n / 10) (digitChar (n % 10) :: acc) (by omega),
        ih (n / 10) [digitChar (n % 10)] (by omega), List.append_assoc]
      simp

theorem natCharsCore_fuel (fuel : Nat) :
    ∀ (fuel' n : Nat), n < fuel → n < fuel' →
      natCharsCore fuel n [] = natCharsCore fuel' n [] := by
  induction fuel with
  | zero =>
    intro _ n h _
    omega
  | succ f ih =>
    intro fuel' n h h'
    cases fuel' with
    | zero => omega
    | succ f' =>
      simp only [natCharsCore]
      by_cases h10 : n < 10
      · rw [if_pos h10, if_pos h10]
      · rw [if_neg h10, if_neg h10,
          natCharsCore_acc f (n / 10) [digitChar (n % 10)] (by omega),
          natCharsCore_acc f' (n / 10) [digitChar (n % 10)] (by omega),
          ih f' (n / 10) (by omega) (by omega)]

theorem natChars_lt10 {n : Nat} (h : n < 10) :
    natChars n = [digitChar n] := by
  rw [natChars]
  simp only [natCharsCore]
  rw [if_pos h, Nat.mod_eq_of_lt h]

theorem natChars_ge10 {n : Nat} (h : 10 ≤ n) :
    natChars n = natChars (n / 10) ++ [digitChar (n % 10)] := by
  have e1 : natChars n =
      natCharsCore n (n / 10) (digitChar (n % 10) :: []) := by
    rw [natChars]
    simp only [natCharsCore]
    rw [if_neg (by omega)]
  rw [e1, natCharsCore_acc n (n / 10) _ (by omega),
    natCharsCore_fuel n (n / 10 + 1) (n / 10) (by omega) (by omega),
    natChars]

theorem natChars_all_digits (n : Nat) :
    ∀ c ∈ natChars n, c.isDigit = true := by
  induction n using Nat.strong_induction_on with
  | _ n ih =>
    by_cases h : n < 10
    · rw [natChars_lt10 h]
      intro c hc
      rw [List.mem_singleton.mp hc]
      exact digitChar_isDigit h
    · rw [natChars_ge10 (by omega)]
      intro c hc
      rcases List.mem_append.mp hc with hc | hc
      · exact ih (n / 10) (by omega) c hc
      · rw [List.mem_singleton.mp hc]
        exact digitChar_isDigit (Nat.mod_lt _ (by omega))

theorem natChars_ne_nil (n : Nat) : natChars n ≠ [] := by
  by_cases h : n < 10
  · rw [natChars_lt10 h]
    simp
  · rw [natChars_ge10 (by omega)]
    simp

theorem parseNat_natChars (n : Nat) : parseNat (natChars n) = some n := by
  induction n using Nat.strong_induction_on with
  | _ n ih =>
    by_cases h : n < 10
    · rw [natChars_lt10 h, parseNat, if_neg (by simp)]
      simp only [List.foldl_cons, List.foldl_nil, parseDigitStep]
      rw [if_pos (digitChar_isDigit h), digitChar_toNat h]
      congr 1
      omega
    · rw [natChars_ge10 (by omega), parseNat,
        if_neg (by simp [natChars_ne_nil]), List.foldl_append]
      have hinner : (natChars (n / 10)).foldl parseDigitStep (some 0) =
          some (n / 10) := by
        have h2 := ih (n / 10) (by omega)
        rwa [parseNat, if_neg (natChars_ne_nil _)] at h2
      rw [hinner]
      simp only [List.foldl_cons, List.foldl_nil, parseDigitStep]
      rw [if_pos (digitChar_isDigit (Nat.mod_lt _ (by omega))),
        digitChar_toNat (Nat.mod_lt _ (by omega))]
      congr 1
      omega

theorem intChars_no_colon (i : Int) :
    ':' ∉ intChars i ∧ quoteChar ∉ intChars i := by
  have hdig : ∀ (n : Nat) (c : Char), c ∈ natChars n → c.isDigit = true :=
    natChars_all_digits
  rw [intChars]
  split
  · constructor
    · intro hmem
      rcases List.mem_cons.mp hmem with hc | hc
      · exact absurd hc (by decide)
      · have := hdig _ _ hc
        simp at this
    · intro hmem
      rcases List.mem_cons.mp hmem with hc | hc
      · exact absurd hc (by decide)
      · have := hdig _ _ hc
        simp [quoteChar] at this
  · constructor
    · intro hmem
      have := hdig _ _ hmem
      simp at this
    · intro hmem
      have := hdig _ _ hmem
      simp [quoteChar] at this

theorem parseInt_intChars (i : Int) : parseInt (intChars i) = some i := by
  rcases lt_or_le i 0 with h | h
  · rw [intChars, if_pos h, parseInt]
    rw [if_pos (by rfl), List.drop_one, List.tail_cons, parseNat_natChars]
    simp only [Option.map_some']
    congr 1
    omega
  · rw [intChars, if_neg (not_lt.mpr h), parseInt]
    have hne := natChars_ne_nil i.toNat
    have hhead : (natChars i.toNat).head? ≠ some '-' := by
      rcases hq : natChars i.toNat with _ | ⟨c, cs⟩
      · exact absurd hq hne
      · have hd := natChars_all_digits i.toNat c (by rw [hq]; simp)
        simp only [List.head?_cons]
        intro hcon
        rw [Option.some.injEq] at hcon
        rw [hcon] at hd
        simp at hd
    rw [if_neg hhead, parseNat_natChars]
    simp only [Option.map_some']
    congr 1
    omega

theorem pySplit_ne_nil (sep : Char) (s : List Char) : pySplit sep s ≠ [] := by
  induction s with
  | nil => simp [pySplit]
  | cons c cs ih =>
    rw [pySplit]
    rcases hq : pySplit sep cs with _ | ⟨h0, t0⟩
    · simp
    · simp only [hq]
      by_cases hcc : c = sep <;> simp [hcc]

theorem pySplit_no_sep (sep : Char) (s : List Char) (h : sep ∉ s) :
    pySplit sep s = [s] := by
  induction s with
  | nil => rfl
  | cons c cs ih =>
    have hc : ¬(c = sep) := by
      intro e
      exact h (by rw [e]; exact List.mem_cons_self _ _)
    have hcs : sep ∉ cs := fun hm => h (List.mem_cons_of_mem c hm)
    simp only [pySplit, ih hcs, if_neg hc]

theorem pySplit_append (sep : Char) (xs ys : List Char) (h : sep ∉ xs) :
    pySplit sep (xs ++ sep :: ys) = xs :: pySplit sep ys := by
  induction xs with
  | nil =>
    rw [List.nil_append, pySplit]
    rcases hq : pySplit sep ys with _ | ⟨h0, t0⟩
    · exact absurd hq (pySplit_ne_nil sep ys)
    · show (if sep = sep then [] :: h0 :: t0 else (sep :: h0) :: t0) =
        [] :: h0 :: t0
      rw [if_pos rfl]
  | cons c cs ih =>
    have hc : ¬(c = sep) := by
      intro e
      exact h (by rw [e]; exact List.mem_cons_self _ _)
    have hcs : sep ∉ cs := fun hm => h (List.mem_cons_of_mem c hm)
    rw [show (c :: cs) ++ sep :: ys = c :: (cs ++ sep :: ys) from rfl,
      pySplit, ih hcs]
    show (if c = sep then [] :: cs :: pySplit sep ys
      else (c :: cs) :: pySplit sep ys) = (c :: cs) :: pySplit sep ys
    rw [if_neg hc]

/-- C9 (amended) main computation: for a variant whose chromosome, REF
and ALT have no colon and whose ALT has no apostrophe, parsing the
identity string recovers exactly the built tuple. -/
theorem parse_variant_to_id (v : Variant)
    (h1 : ':' ∉ v.CHROM.data) (h2 : ':' ∉ v.REF) (h3 : ':' ∉ v.ALT)
    (h4 : quoteChar ∉ v.ALT) :
    parse_variant_id (variant_to_id v) =
      some (v.CHROM.data, v.POS, v.REF, v.ALT) := by
  have hpos := intChars_no_colon v.POS
  have htail : ':' ∉ ('[' :: quoteChar :: (v.ALT ++ quoteChar :: ']' :: [])) := by
    intro hm
    rcases List.mem_cons.mp hm with e | hm
    · exact absurd e (by decide)
    rcases List.mem_cons.mp hm with e | hm
    · exact absurd e (by decide)
    rcases List.mem_append.mp hm with hm | hm
    · exact h3 hm
    rcases List.mem_cons.mp hm with e | hm
    · exact absurd e (by decide)
    · exact absurd (List.mem_singleton.mp hm) (by decide)
  have hid : variant_to_id v =
      v.CHROM.data ++ ':' :: (intChars v.POS ++ ':' :: (v.REF ++ ':' ::
        ('[' :: quoteChar :: (v.ALT ++ quoteChar :: ']' :: [])))) := by
    simp [variant_to_id]
  rw [hid]
  simp only [parse_variant_id]
  rw [pySplit_append ':' v.CHROM.data _ h1,
    pySplit_append ':' (intChars v.POS) _ hpos.1,
    pySplit_append ':' v.REF _ h2,
    pySplit_no_sep ':' _ htail]
  dsimp only
  rw [show ('[' :: quoteChar :: (v.ALT ++ quoteChar :: ']' :: [])) =
      (['['] ++ quoteChar :: (v.ALT ++ quoteChar :: ']' :: [])) from rfl,
    pySplit_append quoteChar ['['] _ (by decide),
    pySplit_append quoteChar v.ALT _ h4,
    pySplit_no_sep quoteChar [']'] (by decide),
    parseInt_intChars]

/-- C9 counterexample: as stated over all variants the claim fails —
two distinct (chrom, pos, ref, alt) tuples build the same identity
string when a chromosome or reference allele contains a colon. -/
theorem variant_id_collision :
    variant_to_id ⟨"a:1", 2, ['T'], ['C'], []⟩ =
      variant_to_id ⟨"a", 1, ['2', ':', 'T'], ['C'], []⟩ ∧
    (Variant.mk "a:1" 2 ['T'] ['C'] []).CHROM ≠
      (Variant.mk "a" 1 ['2', ':', 'T'] ['C'] []).CHROM := by
  constructor
  · decide
  · decide

/-- C9 (amended): restricted to variants whose chromosome, REF and ALT
contain no colon and whose ALT contains no apostrophe (true of real VCF
records), the identity string round-trips uniquely: parsing it as
`get_variant_by_id` does recovers exactly the (chrom, pos, ref, alt)
tuple, and two such variants with equal identity strings agree on the
whole tuple. -/
theorem variant_id_roundtrip (v : Variant)
    (h1 : ':' ∉ v.CHROM.data) (h2 : ':' ∉ v.REF) (h3 : ':' ∉ v.ALT)
    (h4 : quoteChar ∉ v.ALT) :
    parse_variant_id (variant_to_id v) =
      some (v.CHROM.data, v.POS, v.REF, v.ALT) ∧
    (∀ w : Variant, ':' ∉ w.CHROM.data → ':' ∉ w.REF → ':' ∉ w.ALT →
      quoteChar ∉ w.ALT → variant_to_id v = variant_to_id w →
      v.CHROM = w.CHROM ∧ v.POS = w.POS ∧ v.REF = w.REF ∧
        v.ALT = w.ALT) := by
  refine ⟨parse_variant_to_id v h1 h2 h3 h4, ?_⟩
  intro w g1 g2 g3 g4 heq
  have e1 := parse_variant_to_id v h1 h2 h3 h4
  have e2 := parse_variant_to_id w g1 g2 g3 g4
  rw [heq, e2] at e1
  injection e1 with e
  rw [Prod.mk.injEq, Prod.mk.injEq, Prod.mk.injEq] at e
  obtain ⟨ec, ep, er, ea⟩ := e
  refine ⟨?_, ep.symm, er.symm, ea.symm⟩
  cases hv : v.CHROM with
  | mk dv =>
    cases hw : w.CHROM with
    | mk dw =>
      rw [hv, hw] at ec
      simp only at ec
      rw [ec]

/-- Witness for C9 at a concrete input. -/
theorem variant_id_roundtrip_witness :
    (':' ∉ ("chr1" : String).data) ∧
    parse_variant_id (variant_to_id ⟨"chr1", 5, ['T'], ['C'], []⟩) =
      some (("chr1" : String).data, 5, ['T'], ['C']) :=
  ⟨by decide,
   (variant_id_roundtrip ⟨"chr1", 5, ['T'], ['C'], []⟩ (by decide)
     (by decide) (by decide) (by decide)).1⟩

end VcfSeq
